import Mathlib

/-!
Verification development for the dot-ai configuration synchronizer.

The source is TypeScript (src/generator.ts, src/migrator.ts, src/types.ts).
We shallow-embed the pure content-transformation core over `Str := List Char`
(JS strings are sequences of code units; every file content and path is such a
sequence).  Filesystem effects are made explicit: functions that in the source
read or write files take the relevant contents as arguments and return the
list of write effects in program order.  JSON values written to disk are kept
at the structural level (records as association lists) rather than as
serialized text; numbers parsed from frontmatter are modelled as exact
naturals / exact decimals, which coincides with the source for values inside
double precision.
-/

abbrev Str := List Char

def str (s : String) : Str := s.data

/-- Whitespace test used by the model of JS `String.trim` (the common ASCII
whitespace characters). -/
def isWS (c : Char) : Bool :=
  c = ' ' || c = '\t' || c = '\n' || c = '\r' || c = '\x0b' || c = '\x0c'

/-- Model of JS `trimStart`. -/
def trimL (s : Str) : Str := s.dropWhile isWS

/-- Model of JS `trimEnd`. -/
def trimR (s : Str) : Str := (s.reverse.dropWhile isWS).reverse

/-- Model of JS `String.trim`. -/
def trimStr (s : Str) : Str := trimR (trimL s)

/-- `leadsWith pat s` holds when `pat` is an initial segment of `s`
(model of an anchored match / `startsWith`). -/
def leadsWith : Str → Str → Bool
  | [], _ => true
  | _ :: _, [] => false
  | a :: as, b :: bs => a = b && leadsWith as bs

/-- Index of the first occurrence of `pat` inside `s`, if any (the semantics
of JS `String.indexOf` / the leftmost match of a non-greedy regex group). -/
def findSub (pat : Str) : Str → Option Nat
  | [] => if pat = [] then some 0 else none
  | c :: t => if leadsWith pat (c :: t) then some 0 else (findSub pat t).map (· + 1)

/-- Model of JS `String.replace` with a plain-string pattern: replace the
first occurrence only, leave the string unchanged when the pattern is absent. -/
def replaceFirst (pat rep s : Str) : Str :=
  match findSub pat s with
  | some i => s.take i ++ rep ++ s.drop (i + pat.length)
  | none => s

/-- Split on a single character, JS `String.split` semantics
(`"".split(c) = [""]`, separators delimit possibly empty fields). -/
def splitCh (sep : Char) : Str → List Str
  | [] => [[]]
  | c :: t =>
      match splitCh sep t with
      | [] => [[]]
      | h :: r => if c = sep then [] :: h :: r else (c :: h) :: r

/-- Join with a separator string, JS `Array.join` semantics. -/
def joinWith (sep : Str) : List Str → Str
  | [] => []
  | [l] => l
  | l :: l' :: ls => l ++ sep ++ joinWith sep (l' :: ls)

/-- First-occurrence deduplication with an accumulator of already-seen
elements; `dedupFirst` below models JS `[...new Set(l)]`. -/
def dedupGo [DecidableEq α] (seen : List α) : List α → List α
  | [] => []
  | x :: xs => if x ∈ seen then dedupGo seen xs else x :: dedupGo (x :: seen) xs

/-- Model of JS `[...new Set(l)]`: keep the first occurrence of each element,
in order. -/
def dedupFirst [DecidableEq α] (l : List α) : List α := dedupGo [] l

def countOcc [DecidableEq α] (a : α) : List α → Nat
  | [] => 0
  | b :: t => (if b = a then 1 else 0) + countOcc a t

/-! ### Records (JS objects) -/

/-- A JS object with string keys, in insertion order. -/
abbrev RecordS (V : Type) := List (Str × V)

/-- First-match lookup (keys of a JS object are unique, so this is the
object's indexing operation). -/
def lookupRec {V : Type} : RecordS V → Str → Option V
  | [], _ => none
  | (k', v) :: t, k => if k' = k then some v else lookupRec t k

/-- Truthiness test `obj[k]` used by the source for presence (all stored
values are objects, hence truthy). -/
def containsRec {V : Type} (r : RecordS V) (k : Str) : Bool :=
  (lookupRec r k).isSome

/-- JS assignment `obj[k] = v`: replace in place when the key exists,
otherwise append (insertion order preserved). -/
def setRec {V : Type} : RecordS V → Str → V → RecordS V
  | [], k, v => [(k, v)]
  | (k', v') :: t, k, v => if k' = k then (k', v) :: t else (k', v') :: setRec t k v

def keysRec {V : Type} (r : RecordS V) : List Str := r.map Prod.fst

/-! ### Frontmatter values (src/generator.ts, parseFrontmatter) -/

/-- A parsed frontmatter value.  Numbers are modelled exactly: `int` holds the
value of `parseInt(v, 10)` on an all-digit string, `float` holds the integer
part and the fraction digits (trailing zeros stripped) of `parseFloat` on a
digit-dot-digit string; this coincides with the source for values within
double precision. -/
inductive FMValue
  | bool (b : Bool)
  | int (n : Nat)
  | float (ip : Nat) (frac : Str)
  | str (s : Str)
deriving DecidableEq, Repr

def quoteCh : Char := Char.ofNat 39

def isQuoteCh (c : Char) : Bool := c = '"' || c = quoteCh

/-- Model of `value.replace(/^['"]|['"]$/g, "")`: drop one leading quote of
either kind if present, then one trailing quote of either kind if present —
the two ends are handled independently, a lone or non-matching quote is
dropped too. -/
def stripQuotes (v : Str) : Str :=
  let v1 := match v with
    | c :: t => if isQuoteCh c then t else v
    | [] => []
  match v1.getLast? with
  | some c => if isQuoteCh c then v1.dropLast else v1
  | none => v1

/-- `/^\d+$/` -/
def isDigitsS (v : Str) : Bool := !v.isEmpty && v.all Char.isDigit

/-- Value of `parseInt(v, 10)` on an all-digit string. -/
def natOfDigits (v : Str) : Nat := v.foldl (fun n c => n * 10 + (c.toNat - 48)) 0

def stripTrailZeros (s : Str) : Str := (s.reverse.dropWhile (fun c => c = '0')).reverse

/-- `/^\d+\.\d+$/`: split at the first dot and require digits on both sides. -/
def floatSplit (v : Str) : Option (Str × Str) :=
  match v.findIdx? (fun c => c = '.') with
  | none => none
  | some i =>
      let d1 := v.take i
      let d2 := v.drop (i + 1)
      if isDigitsS d1 && isDigitsS d2 then some (d1, d2) else none

/-- The value-typing chain of `parseFrontmatter` (src/generator.ts lines
135-147), in source order: boolean literals, `/^\d+$/`, `/^\d+\.\d+$/`,
otherwise string with quote stripping. -/
def typeValue (v : Str) : FMValue :=
  if v = str "true" then .bool true
  else if v = str "false" then .bool false
  else if isDigitsS v then .int (natOfDigits v)
  else
    match floatSplit v with
    | some (d1, d2) => .float (natOfDigits d1) (stripTrailZeros d2)
    | none => .str (stripQuotes v)

/-- Processing of one line of the frontmatter block (the body of the
`for (const line of lines)` loop in parseFrontmatter). -/
def parseLine (acc : RecordS FMValue) (line : Str) : RecordS FMValue :=
  let t := trimStr line
  if t = [] then acc
  else if t.head? = some '#' then acc
  else
    match t.findIdx? (fun c => c = ':') with
    | none => acc
    | some i =>
        let k := trimStr (t.take i)
        let v := trimStr (t.drop (i + 1))
        setRec acc k (typeValue v)

/-- The simple YAML-subset parser applied to the text between the markers. -/
def parseYamlish (fm : Str) : RecordS FMValue :=
  if trimStr fm = [] then [] else (splitCh '\n' fm).foldl parseLine []

def fmMarker : Str := str "---\n"
def fmClose : Str := str "\n---\n"
def fmEmpty : Str := str "---\n---\n"

/-- Model of `parseFrontmatter` (src/generator.ts lines 86-151).  The main
regex `^---\n([\s\S]*?)\n---\n([\s\S]*)$` anchors the opening marker at the
start and takes the leftmost closing marker (non-greedy group); when it fails
the special empty-frontmatter regex `^---\n---\n([\s\S]*)$` is tried; when
both fail the whole content is returned as body with empty metadata. -/
def parseFrontmatter (content : Str) : RecordS FMValue × Str :=
  if leadsWith fmMarker content then
    let rest := content.drop 4
    match findSub fmClose rest with
    | some i => (parseYamlish (rest.take i), rest.drop (i + 5))
    | none =>
        if leadsWith fmEmpty content then ([], content.drop 8) else ([], content)
  else ([], content)

/-- `stripFrontmatter` (src/generator.ts lines 153-156). -/
def stripFM (content : Str) : Str := (parseFrontmatter content).2

/-! ### Frontmatter serialization (src/generator.ts, generateFiles lines
217-232): re-attachment of the metadata block for per-rule provider files. -/

/-- `JSON.stringify` / bare-string rendering of one value, as in
`${key}: ${typeof value === "string" ? value : JSON.stringify(value)}`. -/
def serializeValue : FMValue → Str
  | .bool true => str "true"
  | .bool false => str "false"
  | .int n => (Nat.repr n).data
  | .float ip frac => (Nat.repr ip).data ++ (if frac = [] then [] else '.' :: frac)
  | .str s => s

/-- The metadata block emitted by `generateFiles` when the rule has metadata;
nothing is emitted for an empty mapping. -/
def frontmatterBlock (md : RecordS FMValue) : Str :=
  if md = [] then []
  else
    str "---\n" ++
      joinWith (str "\n") (md.map (fun p => p.1 ++ str ": " ++ serializeValue p.2)) ++
      str "\n---\n"

/-- Reattach metadata to a body (the per-rule provider payload). -/
def serializeRule (md : RecordS FMValue) (body : Str) : Str :=
  frontmatterBlock md ++ body

/-! ### Server specs and the three provider schemas (src/types.ts) -/

inductive TransportTag
  | stdio
  | sse
deriving DecidableEq, Repr

/-- `MCPServer` of src/types.ts: `{ type?: "stdio"|"sse"; command: string;
args?: string[]; env?: Record<string,string> }`. -/
structure MCPServer where
  type : Option TransportTag
  command : Str
  args : Option (List Str)
  env : Option (RecordS Str)
deriving DecidableEq, Repr

inductive OCTag
  | local
  | remote
deriving DecidableEq, Repr

/-- `OpenCodeMCPServer` of src/types.ts: `{ type: "local"|"remote";
command?: string[]; url?: string; environment?: Record<string,string> }`. -/
structure OpenCodeMCPServer where
  type : OCTag
  command : Option (List Str)
  url : Option Str
  environment : Option (RecordS Str)
deriving DecidableEq, Repr

/-- The canonical→split-array conversion performed per server by
`generateFiles` (src/generator.ts lines 239-253): a literal `"local"` tag,
one array `[command, ...args]`, and an `environment` field only when `env`
is present and non-empty. -/
def toOpenCode (s : MCPServer) : OpenCodeMCPServer :=
  { type := .local
    command := some (s.command :: s.args.getD [])
    url := none
    environment :=
      match s.env with
      | some e => if e.length > 0 then some e else none
      | none => none }

/-- The split-array→canonical inverse conversion performed per entry inside
`extractAllMCPConfigs` (src/migrator.ts lines 117-123): tag forced to
`"stdio"`, executable `command?.[0] || ""`, args `command?.slice(1) || []`,
env `environment || {}`; the entry's own tag and `url` are never read. -/
def fromOpenCode (o : OpenCodeMCPServer) : MCPServer :=
  { type := some .stdio
    command := (o.command.getD []).headD []
    args := some ((o.command.getD []).drop 1)
    env := some (o.environment.getD []) }

/-! ### The MCP merge (src/migrator.ts, extractAllMCPConfigs lines 64-135)

The three sources are passed as optional records: `none` stands for a file
that is missing, unreadable, or lacking its server field — in every such case
the source contributes zero entries. -/

/-- One iteration of the duplicate-tracking loops (sources 2 and 3): record
the name if the accumulator already has it, then assign (overwrite). -/
def mergeStep {A : Type} (conv : A → MCPServer)
    (st : RecordS MCPServer × List Str) (p : Str × A) :
    RecordS MCPServer × List Str :=
  (setRec st.1 p.1 (conv p.2),
   if containsRec st.1 p.1 then st.2 ++ [p.1] else st.2)

/-- `extractAllMCPConfigs`: `.mcp.json` entries are `Object.assign`ed first
(no duplicate tracking — the accumulator starts empty), then
`.gemini/settings.json` entries, then `opencode.json` entries converted via
`fromOpenCode`; finally the duplicate names are deduplicated in
first-occurrence order (`[...new Set(duplicates)]`). -/
def extractAllMCPConfigs (m g : Option (RecordS MCPServer))
    (o : Option (RecordS OpenCodeMCPServer)) :
    RecordS MCPServer × List Str :=
  let a1 := (m.getD []).foldl (fun acc p => setRec acc p.1 p.2) []
  let s2 := (g.getD []).foldl (mergeStep id) (a1, [])
  let s3 := (o.getD []).foldl (mergeStep fromOpenCode) s2
  (s3.1, dedupFirst s3.2)

/-- The value the merge is claimed to keep for a name: the value from the
last source (in the fixed priority order .mcp.json, .gemini/settings.json,
opencode.json) in which the name appears, with the opencode value converted
via the inverse mapping. -/
def lastSourceValue (s1 s2 : RecordS MCPServer) (s3 : RecordS OpenCodeMCPServer)
    (n : Str) : Option MCPServer :=
  match lookupRec s3 n with
  | some a => some (fromOpenCode a)
  | none =>
      match lookupRec s2 n with
      | some v => some v
      | none => lookupRec s1 n

/-! ### Generation pipeline pieces needed by the claims (src/generator.ts) -/

/-- `RuleFile` of src/types.ts. -/
structure RuleFile where
  frontmatter : RecordS FMValue
  content : Str
  filename : Str
deriving DecidableEq, Repr

/-- `AIConfig` of src/types.ts. -/
structure AIConfig where
  instructions : Str
  rules : List RuleFile
  commands : List Str
  mcpServers : RecordS MCPServer
deriving DecidableEq, Repr

/-- The command-name listing of `readAIConfig` (src/generator.ts lines
48-64): for each file matched by the `*.md` glob over the commands
directory, in scan order, push `file.replace(".md", "")`. -/
def readCommandNames (files : List Str) : List Str :=
  files.foldl (fun acc f => acc ++ [replaceFirst (str ".md") [] f]) []

/-- The `.gemini/settings.json` JSON document, kept structural: the
`mcpServers` field plus any other top-level keys (their values modelled as
opaque strings, standing for arbitrary JSON). -/
structure GeminiSettingsObj where
  mcpServers : Option (RecordS MCPServer)
  extra : RecordS Str
deriving DecidableEq, Repr

/-- The wrapped-schema payload built by `generateFiles` (src/generator.ts
lines 234-237, 265): the object literal `{ mcpServers: config.mcp.mcpServers }`
— it has no other top-level key. -/
def generateGeminiSettings (c : AIConfig) : GeminiSettingsObj :=
  { mcpServers := some c.mcpServers, extra := [] }

/-- The `.gemini/settings.json` file contents after `writeGeneratedFiles`
(src/generator.ts line 289): a plain `Bun.write` of the generated payload —
the pre-existing file, if any, is never read by the pipeline. -/
def geminiSettingsAfterGeneration (_prior : Option GeminiSettingsObj)
    (c : AIConfig) : GeminiSettingsObj :=
  generateGeminiSettings c

/-- The helper `updateProviderSettings` (src/generator.ts lines 190-211) at
its settings-object shape: read the existing file (missing/invalid → fresh
empty object), set the server-list key, keep every other key.  No call site
in the repository invokes it. -/
def updateProviderSettings (existing : Option GeminiSettingsObj)
    (servers : RecordS MCPServer) : GeminiSettingsObj :=
  let e := existing.getD { mcpServers := none, extra := [] }
  { e with mcpServers := some servers }

/-! ### Migration orchestration (src/migrator.ts, runMigration lines 137-240) -/

/-- `DetectedFiles` of src/types.ts: which provider artifacts the scan found
(the optional fields hold the fixed path constants, which are non-empty and
hence truthy in the source). -/
structure DetectedFiles where
  claude : Option Str
  gemini : Option Str
  agents : Option Str
  mcp : Option Str
  cursorRules : List Str
  claudeCommands : List Str
  geminiSettings : Option Str
  opencode : Option Str
deriving DecidableEq, Repr

/-- The `hasAnyFiles` disjunction of `runMigration` (src/migrator.ts lines
155-163), in source order. -/
def hasAnyFiles (d : DetectedFiles) : Bool :=
  d.claude.isSome || d.gemini.isSome || d.agents.isSome ||
    !d.cursorRules.isEmpty || !d.claudeCommands.isEmpty ||
    d.mcp.isSome || d.geminiSettings.isSome || d.opencode.isSome

/-- The fixed separator joined between instruction files. -/
def instrSep : Str := str "\n\n---\n\n"

/-- Instruction consolidation (src/migrator.ts lines 176-187): append each
present file's content in the fixed order CLAUDE, GEMINI, AGENTS; before the
second and third append the separator only when the accumulated text so far
is non-empty (`if (instructions) instructions += sep`). -/
def consolidateInstructions (c g a : Option Str) : Str :=
  let i0 := match c with | some s => s | none => []
  let i1 := match g with
    | some s => (if i0 = [] then i0 else i0 ++ instrSep) ++ s
    | none => i0
  match a with
  | some s => (if i1 = [] then i1 else i1 ++ instrSep) ++ s
  | none => i1

/-- `path.basename`: the part after the last slash. -/
def baseName (p : Str) : Str := (p.reverse.takeWhile (fun c => c ≠ '/')).reverse

/-- One filesystem effect of the migration, in program order.  The
`.ai/mcp.json` write is kept structural (the merged record instead of its
JSON text). -/
inductive MigEffect
  | mkdir (path : Str)
  | writeText (path content : Str)
  | writeServers (path : Str) (servers : RecordS MCPServer)
deriving DecidableEq, Repr

/-- Inputs of one `runMigration` invocation: whether `.ai` already exists,
the detection result, the content of each provider file by path, and the
three optional server-list sources (see `extractAllMCPConfigs`). -/
structure MigrationInput where
  aiDirExists : Bool
  detected : DetectedFiles
  readF : Str → Str
  mcpJson : Option (RecordS MCPServer)
  geminiJson : Option (RecordS MCPServer)
  opencodeJson : Option (RecordS OpenCodeMCPServer)

/-- `runMigration` (src/migrator.ts lines 137-240): fail when `.ai` exists;
fail when nothing was detected (before any directory creation or write);
otherwise create the canonical directories, write the consolidated
instructions when non-empty, copy rules (`.mdc`→`.md` via `replace`) and
commands (basename unchanged), and write the merged server list when it has
at least one server.  The returned list is every effect in program order. -/
def runMigrationModel (inp : MigrationInput) : Except Str Unit × List MigEffect :=
  if inp.aiDirExists then (.error (str ".ai folder already exists"), [])
  else if !hasAnyFiles inp.detected then
    (.error (str "No AI provider configs found to migrate"), [])
  else
    let d := inp.detected
    let effs0 := [MigEffect.mkdir (str ".ai/rules"), MigEffect.mkdir (str ".ai/commands")]
    let instr := consolidateInstructions (d.claude.map inp.readF)
      (d.gemini.map inp.readF) (d.agents.map inp.readF)
    let effs1 := effs0 ++
      (if instr = [] then [] else [MigEffect.writeText (str ".ai/instructions.md") instr])
    let effs2 := effs1 ++ d.cursorRules.map (fun p =>
      MigEffect.writeText (str ".ai/rules/" ++ replaceFirst (str ".mdc") (str ".md") (baseName p))
        (inp.readF p))
    let effs3 := effs2 ++ d.claudeCommands.map (fun p =>
      MigEffect.writeText (str ".ai/commands/" ++ baseName p) (inp.readF p))
    let merged := extractAllMCPConfigs inp.mcpJson inp.geminiJson inp.opencodeJson
    let effs4 := effs3 ++
      (if merged.1.length > 0 then [MigEffect.writeServers (str ".ai/mcp.json") merged.1] else [])
    (.ok (), effs4)

/-! ### Claim-side definitions (stated from the spec or claim wording, for
comparison with the code-derived definitions above) -/

/-- Claim side of C5 (amended): the typing chain in strict precedence order,
with one leading and one trailing surrounding quote (of either kind) stripped
independently from a string value. -/
def claimStripQuotes (v : Str) : Str :=
  let w := match v.head? with
    | some c => if isQuoteCh c then v.tail else v
    | none => v
  match w.getLast? with
  | some c => if isQuoteCh c then w.dropLast else w
  | none => w

/-- Claim side of C5 (amended): literal booleans, then all-digit integers,
then digit-dot-digit floats, otherwise a quote-stripped string. -/
def claimTypedValue (v : Str) : FMValue :=
  if v = str "true" ∨ v = str "false" then .bool (v = str "true")
  else if isDigitsS v then .int (natOfDigits v)
  else
    match floatSplit v with
    | some (d1, d2) => .float (natOfDigits d1) (stripTrailZeros d2)
    | none => .str (claimStripQuotes v)

/-- Claim side of C7: contents of the present instruction files, in the
fixed CLAUDE, GEMINI, AGENTS order, absent files skipped. -/
def presentInstr (c g a : Option Str) : List Str :=
  c.toList ++ g.toList ++ a.toList

/-- Claim side of C7: the consolidated document as the claim states it — the
present contents joined by the fixed separator line. -/
def claimConsolidated (c g a : Option Str) : Str :=
  joinWith instrSep (presentInstr c g a)

/-- The `.ai/instructions.md` write decision of `runMigration`
(src/migrator.ts lines 188-191): write the consolidated text iff it is
non-empty. -/
def migInstructionsWrite (c g a : Option Str) : Option Str :=
  if consolidateInstructions c g a = [] then none
  else some (consolidateInstructions c g a)

/-- A rendered `key: value` frontmatter line. -/
def renderLine (k v : Str) : Str := k ++ str ": " ++ v

/-- Rule-file content made of a metadata block of rendered `key: value`
lines followed by a body. -/
def mkRuleContent (kvs : List (Str × Str)) (body : Str) : Str :=
  str "---\n" ++ joinWith (str "\n") (kvs.map fun p => renderLine p.1 p.2) ++
    str "\n---\n" ++ body

/-- Canonical-form side conditions on one `key: value` pair: both parts are
trimmed and newline-free, the key is non-empty, has no colon, and does not
start with the comment marker. -/
def goodKV (p : Str × Str) : Prop :=
  p.1 ≠ [] ∧ trimL p.1 = p.1 ∧ trimR p.1 = p.1 ∧ '\n' ∉ p.1 ∧ ':' ∉ p.1 ∧
    p.1.head? ≠ some '#' ∧ trimL p.2 = p.2 ∧ trimR p.2 = p.2 ∧ '\n' ∉ p.2

instance (p : Str × Str) : Decidable (goodKV p) := by
  unfold goodKV
  infer_instance

/-- The raw block/body split of a rule content, with the block cut into
lines, following the same regex semantics as `parseFrontmatter` (used only
to state the C3 comparison below). -/
def parseRaw (content : Str) : List Str × Str :=
  if leadsWith fmMarker content then
    let rest := content.drop 4
    match findSub fmClose rest with
    | some i => (splitCh '\n' (rest.take i), rest.drop (i + 5))
    | none => if leadsWith fmEmpty content then ([], content.drop 8) else ([], content)
  else ([], content)

/-- Claim side of C3: equality of rule contents up to metadata line ordering
and whitespace inside the block — a coarse over-approximation (bodies equal,
and the whitespace-stripped non-blank block lines equal as multisets), so
that its failure refutes the claim's equality-up-to. -/
def eqUpToBlockLayout (x y : Str) : Prop :=
  (parseRaw x).2 = (parseRaw y).2 ∧
    List.Perm
      (((parseRaw x).1.map (fun l => l.filter (fun c => !isWS c))).filter
        (fun l => !l.isEmpty))
      (((parseRaw y).1.map (fun l => l.filter (fun c => !isWS c))).filter
        (fun l => !l.isEmpty))

instance (x y : Str) : Decidable (eqUpToBlockLayout x y) := by
  unfold eqUpToBlockLayout
  exact instDecidableAnd

/-! ### Helper lemmas: records -/

theorem lookupRec_cons {V : Type} (k' : Str) (v' : V) (t : RecordS V) (k : Str) :
    lookupRec ((k', v') :: t) k = if k' = k then some v' else lookupRec t k := rfl

theorem lookupRec_setRec {V : Type} (r : RecordS V) (k q : Str) (v : V) :
    lookupRec (setRec r k v) q = if k = q then some v else lookupRec r q := by
  induction r with
  | nil => simp [setRec, lookupRec]
  | cons p t ih =>
      obtain ⟨k', v'⟩ := p
      by_cases hk : k' = k
      · subst hk
        by_cases hq : k' = q <;> simp [setRec, lookupRec_cons, hq]
      · by_cases hq : k' = q
        · subst hq
          have hkq : ¬ k = k' := fun h => hk h.symm
          simp [setRec, hk, lookupRec_cons, hkq]
        · simp [setRec, hk, lookupRec_cons, hq, ih]

theorem lookupRec_eq_none {V : Type} (r : RecordS V) (k : Str)
    (h : k ∉ keysRec r) : lookupRec r k = none := by
  induction r with
  | nil => rfl
  | cons p t ih =>
      obtain ⟨k', v'⟩ := p
      simp only [keysRec, List.map_cons, List.mem_cons, not_or] at h
      obtain ⟨h1, h2⟩ := h
      have hk : ¬ k' = k := fun hh => h1 hh.symm
      rw [lookupRec_cons, if_neg hk]
      exact ih h2

theorem lookupRec_append {V : Type} (r s : RecordS V) (k : Str) :
    lookupRec (r ++ s) k = Option.or (lookupRec r k) (lookupRec s k) := by
  induction r with
  | nil => simp [lookupRec, Option.or]
  | cons p t ih =>
      obtain ⟨k', v'⟩ := p
      by_cases hq : k' = k
      · simp [List.cons_append, lookupRec_cons, hq, Option.or]
      · simp [List.cons_append, lookupRec_cons, hq, ih]

theorem setRec_fresh {V : Type} (r : RecordS V) (k : Str) (v : V)
    (h : containsRec r k = false) : setRec r k v = r ++ [(k, v)] := by
  induction r with
  | nil => rfl
  | cons p t ih =>
      obtain ⟨k', v'⟩ := p
      rw [containsRec, lookupRec_cons] at h
      by_cases hq : k' = k
      · rw [if_pos hq] at h
        simp at h
      · rw [if_neg hq] at h
        rw [setRec, if_neg hq, List.cons_append]
        rw [ih h]

/-- The first component of the duplicate-tracking fold is a plain
assign-with-conversion fold. -/
theorem fold_mergeStep_fst {A : Type} (f : A → MCPServer) :
    ∀ (s : List (Str × A)) (acc : RecordS MCPServer) (d : List Str),
      (s.foldl (mergeStep f) (acc, d)).1 =
        s.foldl (fun a p => setRec a p.1 (f p.2)) acc := by
  intro s
  induction s with
  | nil => intro acc d; rfl
  | cons p t ih =>
      intro acc d
      rw [List.foldl_cons, List.foldl_cons]
      exact ih _ _

/-- Lookup after folding JS assignments of a source with distinct keys over
an accumulator: the source's (converted) value when the key is in the
source, the accumulator's value otherwise. -/
theorem fold_setconv_lookup {A V : Type} (f : A → V) :
    ∀ (s : List (Str × A)) (acc : RecordS V) (k : Str),
      (s.map Prod.fst).Nodup →
      lookupRec (s.foldl (fun a p => setRec a p.1 (f p.2)) acc) k =
        Option.or ((lookupRec s k).map f) (lookupRec acc k) := by
  intro s
  induction s with
  | nil => intro acc k _; simp [lookupRec, Option.or]
  | cons p t ih =>
      intro acc k hnd
      obtain ⟨k0, a0⟩ := p
      simp only [List.map_cons, List.nodup_cons] at hnd
      rw [List.foldl_cons, ih _ _ hnd.2, lookupRec_cons]
      by_cases hq : k0 = k
      · subst hq
        have ht : lookupRec t k0 = none := lookupRec_eq_none _ _ hnd.1
        simp [ht, lookupRec_setRec, Option.or]
      · simp [hq, lookupRec_setRec, Option.or]

/-- The duplicates accumulated by one source with distinct keys: the names of
the source that were already present in the incoming accumulator, in order. -/
theorem fold_mergeStep_snd {A : Type} (f : A → MCPServer) :
    ∀ (s : List (Str × A)) (acc : RecordS MCPServer) (d : List Str),
      (s.map Prod.fst).Nodup →
      (s.foldl (mergeStep f) (acc, d)).2 =
        d ++ (s.map Prod.fst).filter (fun k => containsRec acc k) := by
  intro s
  induction s with
  | nil => intro acc d _; simp
  | cons p t ih =>
      intro acc d hnd
      obtain ⟨k0, a0⟩ := p
      simp only [List.map_cons, List.nodup_cons] at hnd
      rw [List.foldl_cons]
      have step : mergeStep f (acc, d) (k0, a0) =
          (setRec acc k0 (f a0), d ++ if containsRec acc k0 then [k0] else []) := by
        by_cases hc : containsRec acc k0 <;> simp [mergeStep, hc]
      rw [step, ih _ _ hnd.2]
      have hfc : (t.map Prod.fst).filter (fun k => containsRec (setRec acc k0 (f a0)) k) =
          (t.map Prod.fst).filter (fun k => containsRec acc k) := by
        apply List.filter_congr
        intro x hx
        have hxk : ¬ k0 = x := fun h => hnd.1 (h ▸ hx)
        simp [containsRec, lookupRec_setRec, hxk]
      rw [hfc, List.map_cons, List.filter_cons]
      by_cases hc : containsRec acc k0 <;> simp [hc, List.append_assoc]

/-! ### Helper lemmas: first-occurrence dedup -/

theorem countOcc_dedupGo [DecidableEq α] (a : α) :
    ∀ (l : List α) (seen : List α),
      countOcc a (dedupGo seen l) = if a ∈ l ∧ a ∉ seen then 1 else 0 := by
  intro l
  induction l with
  | nil => intro seen; simp [dedupGo, countOcc]
  | cons x xs ih =>
      intro seen
      by_cases hx : x ∈ seen
      · rw [dedupGo, if_pos hx, ih]
        by_cases hax : a = x
        · subst hax
          simp [hx]
        · simp [hax]
      · rw [dedupGo, if_neg hx]
        by_cases hax : a = x
        · subst hax
          rw [countOcc, ih, if_pos rfl]
          have hnotin : ¬ (a ∈ xs ∧ a ∉ a :: seen) := by
            rintro ⟨-, h2⟩
            exact h2 (List.mem_cons_self _ _)
          rw [if_neg hnotin]
          have hyes : a ∈ a :: xs ∧ a ∉ seen := ⟨List.mem_cons_self _ _, hx⟩
          rw [if_pos hyes]
        · have hxa : ¬ x = a := fun h => hax h.symm
          rw [countOcc, if_neg hxa, ih, Nat.zero_add]
          by_cases hmem : a ∈ xs ∧ a ∉ seen
          · have h1 : a ∈ xs ∧ a ∉ x :: seen :=
              ⟨hmem.1, by simp [hax, hmem.2]⟩
            have h2 : a ∈ x :: xs ∧ a ∉ seen := ⟨List.mem_cons_of_mem _ hmem.1, hmem.2⟩
            rw [if_pos h1, if_pos h2]
          · have h1 : ¬ (a ∈ xs ∧ a ∉ x :: seen) := by
              rintro ⟨hm1, hm2⟩
              exact hmem ⟨hm1, fun hs => hm2 (List.mem_cons_of_mem _ hs)⟩
            have h2 : ¬ (a ∈ x :: xs ∧ a ∉ seen) := by
              rintro ⟨hm1, hm2⟩
              rcases List.mem_cons.1 hm1 with h | h
              · exact hax h
              · exact hmem ⟨h, hm2⟩
            rw [if_neg h1, if_neg h2]

/-! ### Helper lemmas: substring search -/

theorem leadsWith_self_append (pat r : Str) : leadsWith pat (pat ++ r) = true := by
  induction pat with
  | nil => rfl
  | cons c t ih => simp [leadsWith, ih]

theorem findSub_of_leads (pat s : Str) (h : leadsWith pat s = true) :
    findSub pat s = some 0 := by
  cases s with
  | nil =>
      cases pat with
      | nil => rfl
      | cons c t => simp [leadsWith] at h
  | cons c t => rw [findSub, if_pos h]

/-- The first occurrence of `pat` in `a ++ pat ++ b` is at index `a.length`
provided no non-empty suffix of `a` starts an occurrence. -/
theorem findSub_at_append (pat b : Str) :
    ∀ a : Str,
      (∀ a2, a2 ≠ [] → (∃ a1, a = a1 ++ a2) →
        leadsWith pat (a2 ++ pat ++ b) = false) →
      findSub pat (a ++ pat ++ b) = some a.length := by
  intro a
  induction a with
  | nil =>
      intro _
      simpa using findSub_of_leads pat (pat ++ b) (leadsWith_self_append pat b)
  | cons c a' ih =>
      intro h
      have hlead : leadsWith pat ((c :: a') ++ pat ++ b) = false :=
        h (c :: a') (List.cons_ne_nil _ _) ⟨[], rfl⟩
      have hrec := ih (fun a2 hne ⟨a1, ha⟩ => h a2 hne ⟨c :: a1, by rw [ha]; rfl⟩)
      rw [List.cons_append, List.cons_append, findSub,
        if_neg (by simpa [List.cons_append] using hlead), hrec]
      rfl

theorem findSub_none_no_occ (pat : Str) :
    ∀ s : Str, findSub pat s = none →
      ∀ a1 a2, s = a1 ++ a2 → leadsWith pat a2 = false := by
  intro s
  induction s with
  | nil =>
      intro h a1 a2 heq
      have h2 : a2 = [] := (List.append_eq_nil.1 heq.symm).2
      subst h2
      cases pat with
      | nil => simp [findSub] at h
      | cons c t => rfl
  | cons c t ih =>
      intro h a1 a2 heq
      rw [findSub] at h
      by_cases hl : leadsWith pat (c :: t) = true
      · rw [if_pos hl] at h; exact absurd h (by simp)
      · rw [if_neg hl] at h
        have ht : findSub pat t = none := by
          cases hf : findSub pat t with
          | none => rfl
          | some i => rw [hf] at h; exact absurd h (by simp)
        cases a1 with
        | nil =>
            simp only [List.nil_append] at heq
            subst heq
            exact Bool.not_eq_true _ ▸ (by simpa using hl)
        | cons d a1' =>
            rw [List.cons_append] at heq
            injection heq with h1 h2
            exact ih ht a1' a2 h2

/-! ### Helper lemmas: split and join -/

theorem splitCh_ne_nil (sep : Char) (s : Str) : splitCh sep s ≠ [] := by
  induction s with
  | nil => simp [splitCh]
  | cons c t ih =>
      rw [splitCh]
      cases h : splitCh sep t with
      | nil => exact absurd h ih
      | cons x xs => by_cases hc : c = sep <;> simp [hc]

theorem splitCh_no_sep (sep : Char) (l : Str) (h : sep ∉ l) :
    splitCh sep l = [l] := by
  induction l with
  | nil => rfl
  | cons c t ih =>
      simp only [List.mem_cons, not_or] at h
      have hcs : ¬ c = sep := fun hh => h.1 hh.symm
      rw [splitCh, ih h.2]
      simp [hcs]

theorem splitCh_append_sep (sep : Char) (r : Str) :
    ∀ l : Str, sep ∉ l → splitCh sep (l ++ sep :: r) = l :: splitCh sep r := by
  intro l
  induction l with
  | nil =>
      intro _
      rw [List.nil_append, splitCh]
      cases h : splitCh sep r with
      | nil => exact absurd h (splitCh_ne_nil sep r)
      | cons x xs => simp
  | cons c t ih =>
      intro h
      simp only [List.mem_cons, not_or] at h
      have hcs : ¬ c = sep := fun hh => h.1 hh.symm
      rw [List.cons_append, splitCh, ih h.2]
      simp [hcs]

theorem splitCh_joinWith_nl :
    ∀ lines : List Str, (∀ l ∈ lines, '\n' ∉ l) → lines ≠ [] →
      splitCh '\n' (joinWith (str "\n") lines) = lines := by
  intro lines
  induction lines with
  | nil => intro _ h; exact absurd rfl h
  | cons l rest ih =>
      intro h _
      cases rest with
      | nil =>
          rw [joinWith]
          exact splitCh_no_sep '\n' l (h l (List.mem_cons_self _ _))
      | cons l' ls =>
          rw [joinWith]
          have hb : l ++ str "\n" ++ joinWith (str "\n") (l' :: ls) =
              l ++ '\n' :: joinWith (str "\n") (l' :: ls) := by
            simp [str]
          rw [hb, splitCh_append_sep '\n' _ l (h l (List.mem_cons_self _ _)),
            ih (fun x hx => h x (List.mem_cons_of_mem _ hx)) (List.cons_ne_nil _ _)]

/-! ### Helper lemmas: trimming -/

theorem trimL_cons_nws (c : Char) (t : Str) (h : isWS c = false) :
    trimL (c :: t) = c :: t := by
  rw [trimL, List.dropWhile_cons, if_neg (by simp [h])]

theorem trimR_of_last_nws (w : Str) (c : Char) (rest : Str)
    (hrev : w.reverse = c :: rest) (h : isWS c = false) : trimR w = w := by
  rw [trimR, hrev, List.dropWhile_cons, if_neg (by simp [h]), ← hrev,
    List.reverse_reverse]

/-- A non-empty fixed point of `trimR` ends in a non-whitespace character. -/
theorem last_nws_of_trimR (w : Str) (hw : trimR w = w) (hne : w ≠ []) :
    ∃ c rest, w.reverse = c :: rest ∧ isWS c = false := by
  cases hrev : w.reverse with
  | nil => exact absurd (by simpa using congrArg List.reverse hrev) hne
  | cons c rest =>
      refine ⟨c, rest, rfl, ?_⟩
      by_contra hws
      have hws' : isWS c = true := by
        cases h : isWS c with
        | false => exact absurd h hws
        | true => rfl
      have hdrop : List.dropWhile isWS w.reverse = w.reverse :=
        by rw [← List.reverse_reverse (List.dropWhile isWS w.reverse)]
           rw [show (List.dropWhile isWS w.reverse).reverse = trimR w from rfl, hw]
      rw [hrev, List.dropWhile_cons, if_pos (by simp [hws'])] at hdrop
      have hlen : rest.length < (List.dropWhile isWS rest).length := by
        rw [hdrop]
        simp
      have hle : (List.dropWhile isWS rest).length ≤ rest.length :=
        (List.dropWhile_sublist (l := rest) isWS).length_le
      omega

/-- A non-empty fixed point of `trimL` starts with a non-whitespace
character. -/
theorem head_nws_of_trimL (w : Str) (hw : trimL w = w) (hne : w ≠ []) :
    ∃ c rest, w = c :: rest ∧ isWS c = false := by
  cases w with
  | nil => exact absurd rfl hne
  | cons c rest =>
      refine ⟨c, rest, rfl, ?_⟩
      by_contra hws
      have hws' : isWS c = true := by
        cases h : isWS c with
        | false => exact absurd h hws
        | true => rfl
      rw [trimL, List.dropWhile_cons, if_pos (by simp [hws'])] at hw
      have hlen : rest.length < (List.dropWhile isWS rest).length := by
        rw [hw]
        simp
      have hle : (List.dropWhile isWS rest).length ≤ rest.length :=
        (List.dropWhile_sublist (l := rest) isWS).length_le
      omega

theorem trimStr_nil_all_ws (s : Str) (h : trimStr s = []) :
    ∀ c ∈ s, isWS c = true := by
  intro c hc
  rw [trimStr, trimR] at h
  have h1 : List.dropWhile isWS (trimL s).reverse = [] := by
    have := congrArg List.reverse h
    simpa using this
  have h2 : ∀ x ∈ (trimL s).reverse, isWS x = true := List.dropWhile_eq_nil_iff.1 h1
  rcases List.mem_append.1 ((List.takeWhile_append_dropWhile isWS s ▸ hc : c ∈ _)) with hm | hm
  · exact List.mem_takeWhile_imp hm
  · exact h2 c (by simpa using hm)

/-! ### Helper lemmas: location of the closing marker -/

/-- Aligning two decompositions of a string at a newline, when the left part
`l` of the second decomposition is newline-free. -/
theorem nl_align :
    ∀ (a1 l a2 J : Str), '\n' ∉ l → a1 ++ '\n' :: a2 = l ++ '\n' :: J →
      (a1 = l ∧ a2 = J) ∨ (∃ a1', a1 = l ++ '\n' :: a1' ∧ a1' ++ '\n' :: a2 = J) := by
  intro a1
  induction a1 with
  | nil =>
      intro l a2 J hl heq
      cases l with
      | nil =>
          injection heq with _ h2
          exact Or.inl ⟨rfl, h2⟩
      | cons c l' =>
          injection heq with h1 _
          exact absurd (h1 ▸ List.mem_cons_self c l') hl
  | cons c a1'' ih =>
      intro l a2 J hl heq
      cases l with
      | nil =>
          rw [List.nil_append] at heq
          injection heq with h1 h2
          subst h1
          exact Or.inr ⟨a1'', rfl, h2⟩
      | cons d l' =>
          rw [List.cons_append, List.cons_append] at heq
          injection heq with h1 h2
          subst h1
          rcases ih l' a2 J (fun hm => hl (List.mem_cons_of_mem _ hm)) h2 with
            ⟨ha, hb⟩ | ⟨a1', ha, hb⟩
          · exact Or.inl ⟨by rw [ha], hb⟩
          · exact Or.inr ⟨a1', by rw [ha, List.cons_append], hb⟩

/-- A suffix of a newline-join that starts right after a `'\n'` is itself the
join of a non-empty final run of the lines. -/
theorem suffix_nl_of_join :
    ∀ (lines : List Str) (a1 a2 : Str), (∀ l ∈ lines, '\n' ∉ l) →
      joinWith (str "\n") lines = a1 ++ '\n' :: a2 →
      ∃ ls', ls' ≠ [] ∧ a2 = joinWith (str "\n") ls' ∧ ∃ pre, lines = pre ++ ls' := by
  intro lines
  induction lines with
  | nil =>
      intro a1 a2 _ heq
      rw [joinWith] at heq
      have h2 : ('\n' :: a2 : Str) = [] := (List.append_eq_nil.1 heq.symm).2
      exact absurd h2 (List.cons_ne_nil _ _)
  | cons l rest ih =>
      intro a1 a2 h heq
      cases rest with
      | nil =>
          rw [joinWith] at heq
          exact absurd (heq ▸ List.mem_append_right a1 (List.mem_cons_self _ _))
            (h l (List.mem_cons_self _ _))
      | cons l' ls =>
          rw [joinWith] at heq
          have heq' : a1 ++ '\n' :: a2 = l ++ '\n' :: joinWith (str "\n") (l' :: ls) := by
            rw [← heq]
            simp [str]
          rcases nl_align a1 l a2 _ (h l (List.mem_cons_self _ _)) heq' with
            ⟨_, hb⟩ | ⟨a1', _, hb⟩
          · exact ⟨l' :: ls, List.cons_ne_nil _ _, hb, [l], rfl⟩
          · rcases ih a1' a2 (fun x hx => h x (List.mem_cons_of_mem _ hx)) hb.symm with
              ⟨ls', hne, ha2, pre, hpre⟩
            exact ⟨ls', hne, ha2, l :: pre, by rw [hpre, List.cons_append]⟩

/-- A newline-free line different from `"---"` cannot start an occurrence of
the closing marker pattern `"---\n"`. -/
theorem not_leads_dashes (l : Str) (R : Str) (hnl : '\n' ∉ l)
    (hne : l ≠ str "---") : leadsWith (str "---\n") (l ++ '\n' :: R) = false := by
  match l with
  | [] => simp [str, leadsWith]
  | [c1] =>
      by_cases h1 : '-' = c1 <;> simp [str, leadsWith, h1]
  | [c1, c2] =>
      by_cases h1 : '-' = c1 <;> by_cases h2 : '-' = c2 <;>
        simp [str, leadsWith, h1, h2]
  | [c1, c2, c3] =>
      by_cases h1 : '-' = c1
      · by_cases h2 : '-' = c2
        · by_cases h3 : '-' = c3
          · exact absurd (by rw [← h1, ← h2, ← h3]; rfl) hne
          · simp [str, leadsWith, h1, h2, h3]
        · simp [str, leadsWith, h1, h2]
      · simp [str, leadsWith, h1]
  | c1 :: c2 :: c3 :: c4 :: l' =>
      have h4 : ¬ '\n' = c4 := fun h => hnl (by rw [h]; simp)
      by_cases h1 : '-' = c1 <;> by_cases h2 : '-' = c2 <;> by_cases h3 : '-' = c3 <;>
        simp [str, leadsWith, h1, h2, h3, h4]

/-- First index of a colon in `k ++ ':' :: r` when `k` is colon-free. -/
theorem findIdx_colon (r : Str) :
    ∀ (k : Str), ':' ∉ k → ∀ i : Nat,
      List.findIdx? (fun c => c = ':') (k ++ ':' :: r) i = some (i + k.length) := by
  intro k
  induction k with
  | nil =>
      intro _ i
      rw [List.nil_append, List.findIdx?_cons, if_pos (by simp)]
      simp
  | cons c k' ih =>
      intro h i
      simp only [List.mem_cons, not_or] at h
      have hc : ¬ (c = ':') := fun hh => h.1 hh.symm
      rw [List.cons_append, List.findIdx?_cons, if_neg (by simp [hc]),
        ih h.2 (i + 1)]
      simp only [List.length_cons]
      congr 1
      omega

/-- The first occurrence of the closing marker in
`joinWith "\n" lines ++ fmClose ++ body` is exactly at the end of the join,
for newline-free lines none of which is `"---"`. -/
theorem findSub_close_at (lines : List Str) (body : Str)
    (h : ∀ l ∈ lines, '\n' ∉ l ∧ l ≠ str "---") :
    findSub fmClose (joinWith (str "\n") lines ++ fmClose ++ body) =
      some (joinWith (str "\n") lines).length := by
  apply findSub_at_append
  rintro a2 hne ⟨a1, ha⟩
  cases a2 with
  | nil => exact absurd rfl hne
  | cons c a2'' =>
      by_cases hc : '\n' = c
      · subst hc
        rcases suffix_nl_of_join lines a1 a2'' (fun l hl => (h l hl).1) ha with
          ⟨ls', hlne, ha2, pre, hpre⟩
        have hsub : ∀ l ∈ ls', '\n' ∉ l ∧ l ≠ str "---" := by
          intro l hl
          exact h l (hpre ▸ List.mem_append_right pre hl)
        cases ls' with
        | nil => exact absurd rfl hlne
        | cons l0 ls'' =>
            have hl0 := hsub l0 (List.mem_cons_self _ _)
            have hshape : ∃ R : Str, ('\n' :: a2'') ++ fmClose ++ body =
                '\n' :: (l0 ++ '\n' :: R) := by
              cases ls'' with
              | nil =>
                  refine ⟨str "---\n" ++ body, ?_⟩
                  rw [ha2]
                  show ('\n' :: l0) ++ fmClose ++ body = _
                  simp [fmClose, str]
              | cons r rs =>
                  refine ⟨joinWith (str "\n") (r :: rs) ++ fmClose ++ body, ?_⟩
                  rw [ha2]
                  show ('\n' :: (l0 ++ str "\n" ++ joinWith (str "\n") (r :: rs))) ++
                    fmClose ++ body = _
                  simp [str]
            have hred : ∀ R : Str,
                leadsWith fmClose ('\n' :: (l0 ++ '\n' :: R)) =
                  leadsWith (str "---\n") (l0 ++ '\n' :: R) := by
              intro R
              show leadsWith ('\n' :: str "---\n") _ = _
              simp [leadsWith]
            obtain ⟨R, hR⟩ := hshape
            rw [hR, hred, not_leads_dashes l0 _ hl0.1 hl0.2]
      · show leadsWith fmClose (c :: (a2'' ++ fmClose ++ body)) = false
        show leadsWith ('\n' :: str "---\n") _ = false
        simp [leadsWith, hc]

/-- Evaluation of `parseLine` on a line whose trimmed form is
`k ++ ':' :: r` with a colon-free, non-empty, non-comment key part. -/
theorem parseLine_eval (acc : RecordS FMValue) (line k r : Str)
    (ht : trimStr line = k ++ ':' :: r)
    (hk_ne : k ≠ []) (hk_col : ':' ∉ k) (hk_hash : k.head? ≠ some '#') :
    parseLine acc line = setRec acc (trimStr k) (typeValue (trimStr r)) := by
  obtain ⟨c, k'', rfl⟩ : ∃ c k'', k = c :: k'' := by
    cases k with
    | nil => exact absurd rfl hk_ne
    | cons a b => exact ⟨a, b, rfl⟩
  have hc_hash : ¬ (c = '#') := by
    intro h
    exact hk_hash (by simp [h])
  rw [parseLine, ht]
  rw [if_neg (by simp), List.cons_append]
  rw [if_neg (by simpa using hc_hash)]
  rw [← List.cons_append, findIdx_colon r _ hk_col 0, Nat.zero_add]
  have htake : List.take (c :: k'').length (c :: k'' ++ ':' :: r) = c :: k'' := by
    rw [show (c :: k'' ++ ':' :: r : Str) = (c :: k'') ++ ':' :: r by simp]
    exact List.take_left _ _
  have hdrop : List.drop ((c :: k'').length + 1) (c :: k'' ++ ':' :: r) = r := by
    rw [show (c :: k'' ++ ':' :: r : Str) = ((c :: k'') ++ [':']) ++ r by simp]
    exact List.drop_left' (by simp)
  simp only [htake, hdrop]

/-- Processing a canonically rendered `key: value` line assigns the typed
value to the key. -/
theorem parseLine_render (acc : RecordS FMValue) (k v : Str) (hg : goodKV (k, v)) :
    parseLine acc (renderLine k v) = setRec acc k (typeValue v) := by
  obtain ⟨hk_ne, hkL, hkR, hk_nl, hk_col, hk_hash, hvL, hvR, hv_nl⟩ := hg
  obtain ⟨c, k'', hk, hcws⟩ := head_nws_of_trimL k hkL hk_ne
  have hline : renderLine k v = k ++ ':' :: ' ' :: v := by
    show k ++ str ": " ++ v = _
    simp [str]
  have htrimL : trimL (renderLine k v) = renderLine k v := by
    rw [hline, hk, List.cons_append]
    exact trimL_cons_nws c _ hcws
  have htrimk : trimStr k = k := by rw [trimStr, hkL, hkR]
  by_cases hv : v = []
  · have ht : trimStr (renderLine k v) = k ++ ':' :: [] := by
      rw [trimStr, htrimL, hline, hv]
      show trimR (k ++ [':', ' ']) = k ++ [':']
      rw [trimR]
      have hrev : (k ++ [':', ' ']).reverse = ' ' :: ':' :: k.reverse := by simp
      rw [hrev, List.dropWhile_cons, if_pos (by simp [isWS]),
        List.dropWhile_cons, if_neg (by simp [isWS])]
      simp
    rw [parseLine_eval acc _ k [] ht hk_ne hk_col hk_hash, htrimk, hv]
    rfl
  · have ht : trimStr (renderLine k v) = k ++ ':' :: (' ' :: v) := by
      rw [trimStr, htrimL, hline]
      obtain ⟨d, w, hvrev, hdws⟩ := last_nws_of_trimR v hvR hv
      apply trimR_of_last_nws _ d (w ++ [' ', ':'] ++ k.reverse)
      · rw [show k ++ ':' :: ' ' :: v = k ++ [':', ' '] ++ v by simp]
        simp [hvrev]
      · exact hdws
    rw [parseLine_eval acc _ k (' ' :: v) ht hk_ne hk_col hk_hash, htrimk]
    have hv' : trimStr (' ' :: v) = v := by
      rw [trimStr, trimL, List.dropWhile_cons, if_pos (by simp [isWS])]
      rw [show List.dropWhile isWS v = trimL v from rfl, hvL, hvR]
    rw [hv']

/-- Folding `parseLine` over canonically rendered lines with pairwise
distinct, fresh keys appends the typed pairs in order. -/
theorem foldl_parseLine (kvs : List (Str × Str)) :
    ∀ acc : RecordS FMValue, (∀ p ∈ kvs, goodKV p) →
      (kvs.map Prod.fst).Nodup →
      (∀ p ∈ kvs, containsRec acc p.1 = false) →
      (kvs.map (fun p => renderLine p.1 p.2)).foldl parseLine acc =
        acc ++ kvs.map (fun p => (p.1, typeValue p.2)) := by
  induction kvs with
  | nil => intro acc _ _ _; simp
  | cons p rest ih =>
      intro acc hgood hnd hfresh
      obtain ⟨k, v⟩ := p
      simp only [List.map_cons, List.nodup_cons] at hnd
      rw [List.map_cons, List.foldl_cons,
        parseLine_render acc k v (hgood _ (List.mem_cons_self _ _)),
        setRec_fresh acc k _ (hfresh _ (List.mem_cons_self _ _))]
      rw [ih (acc ++ [(k, typeValue v)])
        (fun q hq => hgood q (List.mem_cons_of_mem _ hq)) hnd.2 ?_]
      · simp
      · intro q hq
        have hq1 : lookupRec acc q.1 = none := by
          have := hfresh q (List.mem_cons_of_mem _ hq)
          rw [containsRec] at this
          cases h : lookupRec acc q.1 with
          | none => rfl
          | some x => rw [h] at this; simp at this
        have hq2 : ¬ k = q.1 := by
          intro hh
          exact hnd.1 (hh ▸ List.mem_map_of_mem Prod.fst hq)
        rw [containsRec, lookupRec_append, hq1]
        simp [lookupRec, hq2, Option.or]

/-- `parseFrontmatter` on content built from canonically rendered lines and a
body recovers exactly the typed pairs and the body. -/
theorem parseFrontmatter_mk (kvs : List (Str × Str)) (body : Str)
    (hne : kvs ≠ []) (hgood : ∀ p ∈ kvs, goodKV p)
    (hnd : (kvs.map Prod.fst).Nodup) :
    parseFrontmatter (mkRuleContent kvs body) =
      (kvs.map (fun p => (p.1, typeValue p.2)), body) := by
  have hlines : ∀ l ∈ kvs.map (fun p => renderLine p.1 p.2),
      '\n' ∉ l ∧ l ≠ str "---" := by
    intro l hl
    obtain ⟨p, hp, rfl⟩ := List.mem_map.1 hl
    obtain ⟨hk_ne, hkL, hkR, hk_nl, hk_col, hk_hash, hvL, hvR, hv_nl⟩ := hgood p hp
    constructor
    · show '\n' ∉ p.1 ++ str ": " ++ p.2
      intro hmem
      rcases List.mem_append.1 hmem with hmem1 | hmem2
      · rcases List.mem_append.1 hmem1 with hmem3 | hmem4
        · exact hk_nl hmem3
        · simp [str] at hmem4
      · exact hv_nl hmem2
    · intro hcontr
      have hcol : ':' ∈ renderLine p.1 p.2 := by
        show ':' ∈ p.1 ++ str ": " ++ p.2
        apply List.mem_append.2
        exact Or.inl (List.mem_append.2 (Or.inr (by simp [str])))
      rw [hcontr] at hcol
      simp [str] at hcol
  have hlne : kvs.map (fun p => renderLine p.1 p.2) ≠ [] := by
    intro h
    exact hne (List.map_eq_nil_iff.1 h)
  have hcontent : mkRuleContent kvs body =
      fmMarker ++ (joinWith (str "\n") (kvs.map fun p => renderLine p.1 p.2) ++
        (fmClose ++ body)) := by
    rw [mkRuleContent]
    simp [fmMarker, fmClose, List.append_assoc]
  have hlead : leadsWith fmMarker (mkRuleContent kvs body) = true := by
    rw [hcontent]
    exact leadsWith_self_append _ _
  have hdrop4 : (mkRuleContent kvs body).drop 4 =
      joinWith (str "\n") (kvs.map fun p => renderLine p.1 p.2) ++ (fmClose ++ body) := by
    rw [hcontent]
    exact List.drop_left' rfl
  have hfind : findSub fmClose
      (joinWith (str "\n") (kvs.map fun p => renderLine p.1 p.2) ++ (fmClose ++ body)) =
      some (joinWith (str "\n") (kvs.map fun p => renderLine p.1 p.2)).length := by
    have h0 := findSub_close_at (kvs.map fun p => renderLine p.1 p.2) body hlines
    rw [← List.append_assoc]
    exact h0
  rw [parseFrontmatter, if_pos hlead]
  simp only [hdrop4, hfind]
  have htake : List.take (joinWith (str "\n") (kvs.map fun p => renderLine p.1 p.2)).length
      (joinWith (str "\n") (kvs.map fun p => renderLine p.1 p.2) ++ (fmClose ++ body)) =
      joinWith (str "\n") (kvs.map fun p => renderLine p.1 p.2) :=
    List.take_left _ _
  have hdropb : List.drop
      ((joinWith (str "\n") (kvs.map fun p => renderLine p.1 p.2)).length + 5)
      (joinWith (str "\n") (kvs.map fun p => renderLine p.1 p.2) ++ (fmClose ++ body)) =
      body := by
    rw [show joinWith (str "\n") (kvs.map fun p => renderLine p.1 p.2) ++ (fmClose ++ body) =
      (joinWith (str "\n") (kvs.map fun p => renderLine p.1 p.2) ++ fmClose) ++ body by simp]
    apply List.drop_left'
    rw [List.length_append]
    rfl
  rw [htake, hdropb]
  have hy : parseYamlish (joinWith (str "\n") (kvs.map fun p => renderLine p.1 p.2)) =
      kvs.map (fun p => (p.1, typeValue p.2)) := ?_
  · rw [hy]
  have hheadchar : ∃ c Z,
      joinWith (str "\n") (kvs.map fun p => renderLine p.1 p.2) = c :: Z ∧
        isWS c = false := by
    cases kvs with
    | nil => exact absurd rfl hne
    | cons p0 rest0 =>
        obtain ⟨hk_ne, hkL, h3, h4, h5, h6, h7, h8, h9⟩ :=
          hgood p0 (List.mem_cons_self _ _)
        obtain ⟨c, k'', hk, hcws⟩ := head_nws_of_trimL p0.1 hkL hk_ne
        have hl0 : renderLine p0.1 p0.2 = c :: (k'' ++ str ": " ++ p0.2) := by
          rw [renderLine, hk]
          simp
        cases hrest : rest0.map (fun p => renderLine p.1 p.2) with
        | nil =>
            refine ⟨c, k'' ++ str ": " ++ p0.2, ?_, hcws⟩
            rw [List.map_cons, hrest, joinWith, hl0]
        | cons x xs =>
            refine ⟨c, (k'' ++ str ": " ++ p0.2) ++ str "\n" ++
              joinWith (str "\n") (x :: xs), ?_, hcws⟩
            rw [List.map_cons, hrest, joinWith, hl0]
            simp
  have hguard : ¬ trimStr (joinWith (str "\n") (kvs.map fun p => renderLine p.1 p.2)) = [] := by
    obtain ⟨c, Z, hcz, hcws⟩ := hheadchar
    intro h
    have hws := trimStr_nil_all_ws _ h c (by rw [hcz]; exact List.mem_cons_self _ _)
    rw [hws] at hcws
    exact absurd hcws (by simp)
  rw [parseYamlish, if_neg hguard,
    splitCh_joinWith_nl _ (fun l hl => (hlines l hl).1) hlne,
    foldl_parseLine kvs [] hgood hnd (fun p hp => rfl)]
  simp

/-- Re-serializing typed pairs whose values re-render verbatim rebuilds the
original content. -/
theorem serializeRule_mk (kvs : List (Str × Str)) (body : Str) (hne : kvs ≠ [])
    (hser : ∀ p ∈ kvs, serializeValue (typeValue p.2) = p.2) :
    serializeRule (kvs.map fun p => (p.1, typeValue p.2)) body =
      mkRuleContent kvs body := by
  have hmapne : kvs.map (fun p => (p.1, typeValue p.2)) ≠ [] := by
    intro h
    exact hne (List.map_eq_nil_iff.1 h)
  rw [serializeRule, frontmatterBlock, if_neg hmapne, mkRuleContent]
  rw [List.map_map]
  have hmaps : (kvs.map ((fun p => p.1 ++ str ": " ++ serializeValue p.2) ∘
      (fun p => (p.1, typeValue p.2)))) = kvs.map (fun p => renderLine p.1 p.2) := by
    apply List.map_congr_left
    intro p hp
    show p.1 ++ str ": " ++ serializeValue (typeValue p.2) = renderLine p.1 p.2
    rw [hser p hp]
    rfl
  rw [hmaps]

/-! ### Helper lemmas: merge assembly -/

theorem contains_iff_mem {V : Type} (s : RecordS V) (n : Str)
    (h : containsRec s n = true) : n ∈ keysRec s := by
  by_contra hmem
  rw [containsRec, lookupRec_eq_none _ _ hmem] at h
  simp at h

theorem or_isSome {α : Type} (x y : Option α) :
    (Option.or x y).isSome = (x.isSome || y.isSome) := by
  cases x <;> cases y <;> rfl

theorem lookup_assign_s1 (s1 : RecordS MCPServer) (k : Str)
    (h1 : (keysRec s1).Nodup) :
    lookupRec (s1.foldl (fun acc p => setRec acc p.1 p.2) []) k = lookupRec s1 k := by
  have h := fold_setconv_lookup id s1 [] k h1
  simp only [id_eq] at h
  rw [h]
  cases hx : lookupRec s1 k <;> simp [Option.or, lookupRec]

/-! ### Helper lemmas: command-name extension stripping -/

theorem findSub_md_trailing (g : Str) (hg : findSub (str ".md") g = none) :
    findSub (str ".md") (g ++ str ".md") = some g.length := by
  have h := findSub_at_append (str ".md") [] g ?_
  · rw [List.append_nil] at h
    exact h
  · rintro a2 hne ⟨a1, ha⟩
    rw [List.append_nil]
    have hocc := findSub_none_no_occ (str ".md") g hg a1 a2 ha
    cases a2 with
    | nil => exact absurd rfl hne
    | cons c1 r1 =>
        cases r1 with
        | nil => simp [str, leadsWith]
        | cons c2 r2 =>
            cases r2 with
            | nil => simp [str, leadsWith]
            | cons c3 r3 => simpa [str, leadsWith] using hocc

theorem replaceFirst_md_trailing (g : Str) (hg : findSub (str ".md") g = none) :
    replaceFirst (str ".md") [] (g ++ str ".md") = g := by
  rw [replaceFirst, findSub_md_trailing g hg]
  show List.take g.length (g ++ str ".md") ++ [] ++
    List.drop (g.length + (str ".md").length) (g ++ str ".md") = g
  rw [List.take_left g (str ".md")]
  have hdrop : List.drop (g.length + (str ".md").length) (g ++ str ".md") = [] := by
    rw [← List.append_nil (g ++ str ".md")]
    apply List.drop_left'
    rw [List.length_append]
  rw [hdrop]
  simp

theorem foldl_push_eq_map {α β : Type} (h : α → β) :
    ∀ (l : List α) (acc : List β),
      l.foldl (fun a x => a ++ [h x]) acc = acc ++ l.map h := by
  intro l
  induction l with
  | nil => intro acc; simp
  | cons x xs ih =>
      intro acc
      rw [List.foldl_cons, ih, List.map_cons]
      simp

/-! ### Helper lemmas: the claim-side typing chain agrees with the code -/

theorem claimStripQuotes_eq (v : Str) : claimStripQuotes v = stripQuotes v := by
  cases v <;> rfl

theorem claimTypedValue_eq (v : Str) : claimTypedValue v = typeValue v := by
  rw [claimTypedValue, typeValue]
  by_cases h1 : v = str "true"
  · simp [h1]
  · by_cases h2 : v = str "false"
    · have : ¬ (str "false" = str "true") := by decide
      simp [h1, h2, this]
    · simp only [h1, h2, or_self, if_false, if_neg h1, if_neg h2]
      by_cases h3 : isDigitsS v = true
      · simp [h3]
      · simp only [h3]
        cases hf : floatSplit v with
        | some p => rfl
        | none => simp [claimStripQuotes_eq]

/-! ### Claim theorems -/

/-- C6: for every input in which the opening marker is not at the very start,
or the opening marker is present but no closing marker line (with its
newline) follows, `parseFrontmatter` returns empty metadata and the original
content unchanged.  The parser is a total function, so it never throws. -/
theorem claim_C6 (content : Str)
    (h : leadsWith fmMarker content = false ∨
      (leadsWith fmMarker content = true ∧
        findSub fmClose (content.drop 4) = none ∧
        leadsWith fmEmpty content = false)) :
    parseFrontmatter content = ([], content) := by
  rcases h with h | ⟨h1, h2, h3⟩
  · rw [parseFrontmatter, if_neg (by simp [h])]
  · rw [parseFrontmatter, if_pos h1]
    simp [h2, h3]

/-- C6 witness: a malformed block (opening marker, no closing line) is
returned whole as the body. -/
theorem claim_C6_witness :
    parseFrontmatter (str "---\ntitle: x\nno closing") =
      ([], str "---\ntitle: x\nno closing") :=
  claim_C6 (str "---\ntitle: x\nno closing")
    (Or.inr ⟨by decide, by decide, by decide⟩)

/-- C5 counterexample: the claim says a lone or non-matching surrounding
quote is kept, but the source strips leading and trailing quotes
independently: the value `"a` (one unmatched double quote) parses to the
string `a`, not to `"a`. -/
theorem claim_C5_counterexample :
    (parseFrontmatter (str "---\nk: \"a\n---\nB")).1 =
      [(str "k", FMValue.str (str "a"))] ∧
    FMValue.str (str "a") ≠ FMValue.str (str "\"a") :=
  ⟨by decide, by decide⟩

/-- C5 (amended): inside a well-formed metadata block, a `key: value` line is
typed in strict precedence order — literal true/false, all-digit integer,
digit-dot-digit float, otherwise a string with one leading and one trailing
surrounding quote (of either kind) each stripped independently, so lone and
non-matching surrounding quotes are stripped too (`claimTypedValue`). -/
theorem claim_C5_amended (k v body : Str) (hg : goodKV (k, v)) :
    parseFrontmatter (mkRuleContent [(k, v)] body) =
      ([(k, claimTypedValue v)], body) := by
  have h := parseFrontmatter_mk [(k, v)] body (List.cons_ne_nil _ _) ?_ ?_
  · rw [h]
    simp [claimTypedValue_eq]
  · intro p hp
    rw [List.mem_singleton] at hp
    rw [hp]
    exact hg
  · simp

/-- C5 witness: a value carrying a single unmatched quote, parsed from a
complete rule content. -/
theorem claim_C5_witness :
    parseFrontmatter (mkRuleContent [(str "t", str "\"x")] (str "B")) =
      ([(str "t", claimTypedValue (str "\"x"))], str "B") :=
  claim_C5_amended (str "t") (str "\"x") (str "B") (by decide)

/-- C3 counterexample: the round-trip law fails beyond line ordering and
whitespace — a quoted value loses its quotes, so the re-serialized content
differs even under a comparison that ignores all whitespace and line order
inside the block (`eqUpToBlockLayout`, which the claim's equality-up-to
implies). -/
theorem claim_C3_counterexample :
    ¬ eqUpToBlockLayout (str "---\nt: \"hi\"\n---\nB")
        (serializeRule
          (parseFrontmatter (str "---\nt: \"hi\"\n---\nB")).1
          (parseFrontmatter (str "---\nt: \"hi\"\n---\nB")).2) := by
  decide

/-- C3 (amended): the round trip `serialize(parse(x)) = x` holds exactly
(not merely up to layout) when each block line is a canonical `key: value`
line — trimmed newline-free parts, colon-free non-comment non-empty key,
pairwise distinct keys, and a value whose typed form re-serializes verbatim
(which excludes quoted values: their quotes are stripped and not
re-emitted). -/
theorem claim_C3_amended (kvs : List (Str × Str)) (body : Str) (hne : kvs ≠ [])
    (hgood : ∀ p ∈ kvs, goodKV p) (hnd : (kvs.map Prod.fst).Nodup)
    (hser : ∀ p ∈ kvs, serializeValue (typeValue p.2) = p.2) :
    serializeRule (parseFrontmatter (mkRuleContent kvs body)).1
      (parseFrontmatter (mkRuleContent kvs body)).2 = mkRuleContent kvs body := by
  rw [parseFrontmatter_mk kvs body hne hgood hnd]
  exact serializeRule_mk kvs body hne hser

/-- C3 witness: a three-line canonical block (string, boolean, integer)
round-trips byte-identically. -/
theorem claim_C3_witness :
    serializeRule
      (parseFrontmatter (mkRuleContent
        [(str "title", str "X"), (str "enabled", str "true"), (str "n", str "42")]
        (str "\nBody text"))).1
      (parseFrontmatter (mkRuleContent
        [(str "title", str "X"), (str "enabled", str "true"), (str "n", str "42")]
        (str "\nBody text"))).2 =
      mkRuleContent
        [(str "title", str "X"), (str "enabled", str "true"), (str "n", str "42")]
        (str "\nBody text") :=
  claim_C3_amended _ _ (by decide) (by decide) (by decide) (by decide)

/-- C1 counterexample: a pre-existing `.gemini/settings.json` with the
unrelated top-level key `theme` loses that key after the generation pipeline
runs — the pipeline's write replaces the whole file with
`{ mcpServers: ... }` instead of merging. -/
theorem claim_C1_counterexample :
    (geminiSettingsAfterGeneration
        (some { mcpServers :=
                  some [(str "old",
                    { type := none, command := str "oldcmd", args := none, env := none })],
                extra := [(str "theme", str "dark")] })
        { instructions := [], rules := [], commands := [],
          mcpServers := [(str "srv",
            { type := none, command := str "run", args := none, env := none })] }).extra =
      [] ∧
    ([] : RecordS Str) ≠ [(str "theme", str "dark")] :=
  ⟨rfl, by decide⟩

/-- C1 (amended): the generation pipeline overwrites the wrapped-schema
target with exactly `{ mcpServers: serverList }`, discarding every
pre-existing unrelated top-level key; the helper `updateProviderSettings`
does implement the claimed merge-read-then-write (unrelated keys preserved,
server-list key replaced) but is invoked nowhere in the pipeline. -/
theorem claim_C1_amended (prior : Option GeminiSettingsObj) (c : AIConfig) :
    geminiSettingsAfterGeneration prior c =
      { mcpServers := some c.mcpServers, extra := [] } ∧
    ∀ (e : GeminiSettingsObj) (servers : RecordS MCPServer),
      updateProviderSettings (some e) servers =
        { mcpServers := some servers, extra := e.extra } :=
  ⟨rfl, fun _ _ => rfl⟩

/-- C4 counterexample: a ServerSpec with transport tag `"sse"` (and non-empty
args and env) does not round-trip — the inverse conversion forces the tag to
`"stdio"`. -/
theorem claim_C4_counterexample :
    fromOpenCode (toOpenCode
      { type := some TransportTag.sse, command := str "c", args := some [str "a"],
        env := some [(str "k", str "v")] }) ≠
      { type := some TransportTag.sse, command := str "c", args := some [str "a"],
        env := some [(str "k", str "v")] } ∧
    (fromOpenCode (toOpenCode
      { type := some TransportTag.sse, command := str "c", args := some [str "a"],
        env := some [(str "k", str "v")] })).type = some TransportTag.stdio :=
  ⟨by decide, rfl⟩

/-- C4 (amended): for every ServerSpec with non-empty args and non-empty env,
the split-array round trip preserves executable, args and env, and sets the
transport tag to `"stdio"` unconditionally — so the tag is preserved under
the stdio↔local mapping only when it was `"stdio"` (an `"sse"` or absent tag
comes back as `"stdio"`). -/
theorem claim_C4_amended (s : MCPServer) (l : List Str) (e : RecordS Str)
    (hargs : s.args = some l) (_hl : l ≠ []) (henv : s.env = some e) (he : e ≠ []) :
    fromOpenCode (toOpenCode s) =
      { type := some TransportTag.stdio, command := s.command,
        args := s.args, env := s.env } := by
  have hlen : 0 < e.length := List.length_pos.2 he
  rw [toOpenCode, fromOpenCode, henv, hargs]
  simp [hlen, Nat.pos_iff_ne_zero]

/-- C4 witness: a stdio spec with args and env round-trips to itself. -/
theorem claim_C4_witness :
    fromOpenCode (toOpenCode
      { type := some TransportTag.stdio, command := str "c", args := some [str "a"],
        env := some [(str "k", str "v")] }) =
      { type := some TransportTag.stdio, command := str "c", args := some [str "a"],
        env := some [(str "k", str "v")] } :=
  claim_C4_amended _ [str "a"] [(str "k", str "v")] rfl (by decide) rfl (by decide)

/-- C10: the merge's inverse conversion tags every converted entry `"stdio"`
regardless of the source entry's own tag, drops `url` (the result does not
depend on the entry's tag or url at all), and an entry without a command
array yields an empty executable and empty args. -/
theorem claim_C10 (o : OpenCodeMCPServer) :
    (fromOpenCode o).type = some TransportTag.stdio ∧
    (∀ (t : OCTag) (u : Option Str),
      fromOpenCode { o with type := t, url := u } = fromOpenCode o) ∧
    (o.command = none →
      (fromOpenCode o).command = [] ∧ (fromOpenCode o).args = some []) := by
  refine ⟨rfl, fun t u => rfl, fun hc => ?_⟩
  rw [fromOpenCode, hc]
  exact ⟨rfl, rfl⟩

/-- C10 witness: a `"remote"` entry with a url and no command array converts
to a stdio spec with empty executable and args. -/
theorem claim_C10_witness :
    (fromOpenCode ⟨OCTag.remote, none, some (str "u"), none⟩).type =
      some TransportTag.stdio ∧
    (fromOpenCode ⟨OCTag.remote, none, some (str "u"), none⟩).command = [] ∧
    (fromOpenCode ⟨OCTag.remote, none, some (str "u"), none⟩).args = some [] := by
  have h := claim_C10 ⟨OCTag.remote, none, some (str "u"), none⟩
  exact ⟨h.1, (h.2.2 rfl).1, (h.2.2 rfl).2⟩

/-- C2: for three server-list sources with (JSON-object) distinct keys merged
in the fixed priority order — `.mcp.json`, then `.gemini/settings.json`, then
`opencode.json` converted via the inverse mapping — every name present in
more than one source maps in the merged result to the value from the last
source containing it, and the duplicates list contains that name exactly
once, however many times it collided. -/
theorem claim_C2 (s1 s2 : RecordS MCPServer) (s3 : RecordS OpenCodeMCPServer)
    (n : Str)
    (h1 : (keysRec s1).Nodup) (h2 : (keysRec s2).Nodup) (h3 : (keysRec s3).Nodup)
    (hdup : ((containsRec s1 n && containsRec s2 n) ||
             (containsRec s1 n && containsRec s3 n) ||
             (containsRec s2 n && containsRec s3 n)) = true) :
    lookupRec (extractAllMCPConfigs (some s1) (some s2) (some s3)).1 n =
      lastSourceValue s1 s2 s3 n ∧
    countOcc n (extractAllMCPConfigs (some s1) (some s2) (some s3)).2 = 1 := by
  obtain ⟨a2, d2, he2⟩ : ∃ a2 d2,
      s2.foldl (mergeStep id)
        (s1.foldl (fun acc p => setRec acc p.1 p.2) [], []) = (a2, d2) :=
    ⟨_, _, rfl⟩
  obtain ⟨a3, d3, he3⟩ : ∃ a3 d3,
      s3.foldl (mergeStep fromOpenCode) (a2, d2) = (a3, d3) :=
    ⟨_, _, rfl⟩
  have hres : extractAllMCPConfigs (some s1) (some s2) (some s3) =
      (a3, dedupFirst d3) := by
    rw [extractAllMCPConfigs]
    simp only [Option.getD_some]
    rw [he2, he3]
  rw [hres]
  have hA1 : ∀ k, lookupRec (s1.foldl (fun acc p => setRec acc p.1 p.2) []) k =
      lookupRec s1 k :=
    fun k => lookup_assign_s1 s1 k h1
  have ha2 : ∀ k, lookupRec a2 k = Option.or (lookupRec s2 k) (lookupRec s1 k) := by
    intro k
    have hfst : a2 = (s2.foldl (mergeStep id)
        (s1.foldl (fun acc p => setRec acc p.1 p.2) [], [])).1 := by
      rw [he2]
    rw [hfst, fold_mergeStep_fst]
    simp only [id_eq]
    have h := fold_setconv_lookup id s2
      (s1.foldl (fun acc p => setRec acc p.1 p.2) []) k h2
    simp only [Option.map_id, id_eq] at h
    rw [h, hA1 k]
  have ha3 : ∀ k, lookupRec a3 k =
      Option.or ((lookupRec s3 k).map fromOpenCode) (lookupRec a2 k) := by
    intro k
    have hfst : a3 = (s3.foldl (mergeStep fromOpenCode) (a2, d2)).1 := by
      rw [he3]
    rw [hfst, fold_mergeStep_fst]
    exact fold_setconv_lookup fromOpenCode s3 a2 k h3
  have hd2 : d2 = (s2.map Prod.fst).filter (fun k => containsRec s1 k) := by
    have hsnd : d2 = (s2.foldl (mergeStep id)
        (s1.foldl (fun acc p => setRec acc p.1 p.2) [], [])).2 := by
      rw [he2]
    rw [hsnd, fold_mergeStep_snd id s2 _ [] h2, List.nil_append]
    apply List.filter_congr
    intro x hx
    rw [containsRec, containsRec, hA1 x]
  have hd3 : d3 = d2 ++
      (s3.map Prod.fst).filter (fun k => containsRec s2 k || containsRec s1 k) := by
    have hsnd : d3 = (s3.foldl (mergeStep fromOpenCode) (a2, d2)).2 := by
      rw [he3]
    rw [hsnd, fold_mergeStep_snd fromOpenCode s3 a2 d2 h3]
    congr 1
    apply List.filter_congr
    intro x hx
    rw [containsRec, ha2 x, or_isSome]
    rfl
  constructor
  · rw [ha3 n, ha2 n, lastSourceValue]
    clear hdup
    cases lookupRec s3 n <;> cases lookupRec s2 n <;> cases lookupRec s1 n <;> rfl
  · show countOcc n (dedupGo [] d3) = 1
    rw [countOcc_dedupGo]
    simp only [Bool.or_eq_true, Bool.and_eq_true] at hdup
    have hmem : n ∈ d3 := by
      rw [hd3, hd2]
      rcases hdup with (⟨hA, hB⟩ | ⟨hA, hC⟩) | ⟨hB, hC⟩
      · exact List.mem_append.2 (Or.inl
          (List.mem_filter.2 ⟨contains_iff_mem s2 n hB, hA⟩))
      · exact List.mem_append.2 (Or.inr
          (List.mem_filter.2 ⟨contains_iff_mem s3 n hC, by simp [hA]⟩))
      · exact List.mem_append.2 (Or.inr
          (List.mem_filter.2 ⟨contains_iff_mem s3 n hC, by simp [hB]⟩))
    rw [if_pos ⟨hmem, by simp⟩]

/-- C2 witness: the same name in the first two sources — the second source's
value wins and the duplicates list holds the name once. -/
theorem claim_C2_witness :
    lookupRec (extractAllMCPConfigs
        (some [(str "x", ⟨none, str "a", none, none⟩)])
        (some [(str "x", ⟨none, str "b", none, none⟩)])
        (some [])).1 (str "x") =
      lastSourceValue [(str "x", ⟨none, str "a", none, none⟩)]
        [(str "x", ⟨none, str "b", none, none⟩)] [] (str "x") ∧
    countOcc (str "x") (extractAllMCPConfigs
        (some [(str "x", ⟨none, str "a", none, none⟩)])
        (some [(str "x", ⟨none, str "b", none, none⟩)])
        (some [])).2 = 1 :=
  claim_C2 _ _ _ (str "x") (by decide) (by decide) (by decide) (by decide)

/-- C7 counterexample: a present-but-empty first instruction file suppresses
the separator — with CLAUDE.md present and empty and GEMINI.md containing
`G`, the consolidated content is `G`, not the claimed separator-joined
concatenation of the present files' contents. -/
theorem claim_C7_counterexample :
    consolidateInstructions (some []) (some (str "G")) none = str "G" ∧
    claimConsolidated (some []) (some (str "G")) none = instrSep ++ str "G" ∧
    str "G" ≠ instrSep ++ str "G" :=
  ⟨rfl, rfl, by decide⟩

/-- C7 (amended): when every present instruction file is non-empty, the
consolidated content is the present contents joined in fixed order by the
separator, and the file is written iff at least one file is present (nothing
is written when all three are absent); a present-but-empty file contributes
no separator, which is the only divergence from the claim. -/
theorem claim_C7_amended (c g a : Option Str)
    (hc : c ≠ some []) (hg : g ≠ some []) (ha : a ≠ some []) :
    consolidateInstructions c g a = claimConsolidated c g a ∧
    migInstructionsWrite c g a =
      (if presentInstr c g a = [] then none else some (claimConsolidated c g a)) := by
  have hsep : instrSep ≠ [] := by decide
  rcases c with _ | cs
  all_goals rcases g with _ | gs
  all_goals rcases a with _ | as
  · exact ⟨rfl, rfl⟩
  · have has : as ≠ [] := fun h => ha (by rw [h])
    refine ⟨rfl, ?_⟩
    rw [migInstructionsWrite]
    simp [consolidateInstructions, claimConsolidated, presentInstr, joinWith, has]
  · have hgs : gs ≠ [] := fun h => hg (by rw [h])
    refine ⟨rfl, ?_⟩
    rw [migInstructionsWrite]
    simp [consolidateInstructions, claimConsolidated, presentInstr, joinWith, hgs]
  · have hgs : gs ≠ [] := fun h => hg (by rw [h])
    have has : as ≠ [] := fun h => ha (by rw [h])
    constructor
    · show (if (gs : Str) = [] then gs else gs ++ instrSep) ++ as =
        joinWith instrSep [gs, as]
      rw [if_neg hgs, joinWith]
      simp [joinWith, List.append_assoc]
    · rw [migInstructionsWrite]
      have hne : consolidateInstructions none (some gs) (some as) ≠ [] := by
        show (if (gs : Str) = [] then gs else gs ++ instrSep) ++ as ≠ []
        rw [if_neg hgs]
        simp [has]
      rw [if_neg hne, if_neg (by simp [presentInstr])]
      show some ((if (gs : Str) = [] then gs else gs ++ instrSep) ++ as) = _
      rw [if_neg hgs, claimConsolidated]
      show _ = some (joinWith instrSep [gs, as])
      rw [joinWith]
      simp [joinWith, List.append_assoc]
  · have hcs : cs ≠ [] := fun h => hc (by rw [h])
    refine ⟨rfl, ?_⟩
    rw [migInstructionsWrite]
    simp [consolidateInstructions, claimConsolidated, presentInstr, joinWith, hcs]
  · have hcs : cs ≠ [] := fun h => hc (by rw [h])
    have has : as ≠ [] := fun h => ha (by rw [h])
    constructor
    · show (if (cs : Str) = [] then cs else cs ++ instrSep) ++ as =
        joinWith instrSep [cs, as]
      rw [if_neg hcs, joinWith]
      simp [joinWith, List.append_assoc]
    · rw [migInstructionsWrite]
      have hne : consolidateInstructions (some cs) none (some as) ≠ [] := by
        show (if (cs : Str) = [] then cs else cs ++ instrSep) ++ as ≠ []
        rw [if_neg hcs]
        simp [has]
      rw [if_neg hne, if_neg (by simp [presentInstr])]
      show some ((if (cs : Str) = [] then cs else cs ++ instrSep) ++ as) = _
      rw [if_neg hcs, claimConsolidated]
      show _ = some (joinWith instrSep [cs, as])
      rw [joinWith]
      simp [joinWith, List.append_assoc]
  · have hcs : cs ≠ [] := fun h => hc (by rw [h])
    have hgs : gs ≠ [] := fun h => hg (by rw [h])
    constructor
    · show (if (cs : Str) = [] then cs else cs ++ instrSep) ++ gs =
        joinWith instrSep [cs, gs]
      rw [if_neg hcs, joinWith]
      simp [joinWith, List.append_assoc]
    · rw [migInstructionsWrite]
      have hne : consolidateInstructions (some cs) (some gs) none ≠ [] := by
        show (if (cs : Str) = [] then cs else cs ++ instrSep) ++ gs ≠ []
        rw [if_neg hcs]
        simp [hgs]
      rw [if_neg hne, if_neg (by simp [presentInstr])]
      show some ((if (cs : Str) = [] then cs else cs ++ instrSep) ++ gs) = _
      rw [if_neg hcs, claimConsolidated]
      show _ = some (joinWith instrSep [cs, gs])
      rw [joinWith]
      simp [joinWith, List.append_assoc]
  · have hcs : cs ≠ [] := fun h => hc (by rw [h])
    have hgs : gs ≠ [] := fun h => hg (by rw [h])
    have has : as ≠ [] := fun h => ha (by rw [h])
    have hstep1 : (if (cs : Str) = [] then cs else cs ++ instrSep) ++ gs =
        cs ++ instrSep ++ gs := by rw [if_neg hcs]
    have hmid : (cs ++ instrSep ++ gs : Str) ≠ [] := by simp [hcs]
    constructor
    · show (if ((if (cs : Str) = [] then cs else cs ++ instrSep) ++ gs : Str) = []
          then (if (cs : Str) = [] then cs else cs ++ instrSep) ++ gs
          else ((if (cs : Str) = [] then cs else cs ++ instrSep) ++ gs) ++ instrSep) ++ as =
        joinWith instrSep [cs, gs, as]
      rw [hstep1, if_neg hmid, joinWith, joinWith]
      simp [joinWith, List.append_assoc]
    · rw [migInstructionsWrite]
      have hne : consolidateInstructions (some cs) (some gs) (some as) ≠ [] := by
        show (if ((if (cs : Str) = [] then cs else cs ++ instrSep) ++ gs : Str) = []
            then (if (cs : Str) = [] then cs else cs ++ instrSep) ++ gs
            else ((if (cs : Str) = [] then cs else cs ++ instrSep) ++ gs) ++ instrSep) ++ as ≠ []
        rw [hstep1, if_neg hmid]
        simp [has]
      rw [if_neg hne, if_neg (by simp [presentInstr])]
      show some ((if ((if (cs : Str) = [] then cs else cs ++ instrSep) ++ gs : Str) = []
          then (if (cs : Str) = [] then cs else cs ++ instrSep) ++ gs
          else ((if (cs : Str) = [] then cs else cs ++ instrSep) ++ gs) ++ instrSep) ++ as) = _
      rw [hstep1, if_neg hmid, claimConsolidated]
      show _ = some (joinWith instrSep [cs, gs, as])
      rw [joinWith, joinWith]
      simp [joinWith, List.append_assoc]

/-- C7 witness: CLAUDE.md and AGENTS.md present and non-empty, GEMINI.md
absent. -/
theorem claim_C7_witness :
    consolidateInstructions (some (str "C")) none (some (str "A")) =
      claimConsolidated (some (str "C")) none (some (str "A")) ∧
    migInstructionsWrite (some (str "C")) none (some (str "A")) =
      (if presentInstr (some (str "C")) none (some (str "A")) = [] then none
       else some (claimConsolidated (some (str "C")) none (some (str "A")))) :=
  claim_C7_amended _ _ _ (by decide) (by decide) (by decide)

/-- C8: when `.ai` does not already exist and no provider artifacts are
detected, plain migration fails with the "nothing found" error and performs
no filesystem effect — no directory is created and no file is written before
the error. -/
theorem claim_C8 (inp : MigrationInput) (hai : inp.aiDirExists = false)
    (hno : hasAnyFiles inp.detected = false) :
    runMigrationModel inp =
      (.error (str "No AI provider configs found to migrate"), []) := by
  rw [runMigrationModel, if_neg (by simp [hai]), if_pos (by simp [hno])]

/-- C8 witness: an empty working directory. -/
theorem claim_C8_witness :
    runMigrationModel
      { aiDirExists := false,
        detected := { claude := none, gemini := none, agents := none, mcp := none,
                      cursorRules := [], claudeCommands := [], geminiSettings := none,
                      opencode := none },
        readF := fun _ => [], mcpJson := none, geminiJson := none,
        opencodeJson := none } =
      (.error (str "No AI provider configs found to migrate"), []) :=
  claim_C8 _ rfl rfl

/-- C9 counterexample: the command name is produced by replacing the first
occurrence of `".md"`, not by stripping the trailing extension — the matched
filename `a.mdx.md` yields command name `ax.md`, while the claim demands
`a.mdx`. -/
theorem claim_C9_counterexample :
    readCommandNames [str "a.mdx.md"] = [str "ax.md"] ∧
    str "ax.md" ≠ str "a.mdx" :=
  ⟨by decide, by decide⟩

/-- C9 (amended): for every matched filename, the command name is the
filename with its first occurrence of `".md"` removed, in scan order; when
the only occurrence of `".md"` is the trailing extension, this coincides
with stripping the extension. -/
theorem claim_C9_amended (files : List Str)
    (h : ∀ f ∈ files, ∃ g, f = g ++ str ".md" ∧ findSub (str ".md") g = none) :
    readCommandNames files = files.map (fun f => f.take (f.length - 3)) := by
  rw [readCommandNames, foldl_push_eq_map (replaceFirst (str ".md") []) files [],
    List.nil_append]
  apply List.map_congr_left
  intro f hf
  obtain ⟨g, rfl, hgnone⟩ := h f hf
  rw [replaceFirst_md_trailing g hgnone]
  have hlen : (g ++ str ".md").length - 3 = g.length := by
    rw [List.length_append]
    rfl
  rw [hlen, List.take_left]

/-- C9 witness: an ordinary command filename. -/
theorem claim_C9_witness :
    readCommandNames [str "deploy.md"] =
      [str "deploy.md"].map (fun f => f.take (f.length - 3)) :=
  claim_C9_amended [str "deploy.md"] (by
    intro f hf
    rw [List.mem_singleton] at hf
    subst hf
    exact ⟨str "deploy", by decide, by decide⟩)
